import Mathlib

/- Formal model of the sonification core of `app/app.py`:
   the scale quantizer `freqMap` (lines 206-215), the run encoder
   `make_track` (lines 217-224), and the note-assembly loop of
   `generate_midi` (lines 650-664).  Numeric series are modelled over
   `ℝ` in exact arithmetic; `np.log` is `Real.log`, note times are
   exact rationals. -/

/-- Model of `pandas.Series.min` on a non-empty series (`data.min()` in
`freqMap`); the empty case returns a junk value and is outside every
claim's domain. -/
noncomputable def listMin : List ℝ → ℝ
  | [] => 0
  | x :: xs => xs.foldl min x

/-- Model of `pandas.Series.max` (`data.max()` in `freqMap`). -/
noncomputable def listMax : List ℝ → ℝ
  | [] => 0
  | x :: xs => xs.foldl max x

/-- Model of `np.linspace(a, b, num)` (default `endpoint=True`) in exact
arithmetic: numpy computes `y[i] = a + i * ((b - a) / (num - 1))` and for
`num = 1` returns `[a]` (here `(b - a) / 0 = 0` yields the same value).
numpy rejects `num < 0`, which cannot arise at the modelled call site. -/
noncomputable def linspace (a b : ℝ) (num : ℕ) : List ℝ :=
  (List.range num).map fun (i : ℕ) => a + (i : ℝ) * ((b - a) / ((num : ℝ) - 1))

/-- Model of `np.digitize(x, bins)` with the default `right=False` on
monotonically non-decreasing `bins` (every `linspace` output reaching it
here): the right-open bin index of `x`, i.e. the number of edges `≤ x`.
Values below the first edge give `0`; values on or above the last edge
give `bins.length`. -/
noncomputable def digitize (x : ℝ) : List ℝ → ℕ
  | [] => 0
  | b :: bs => (if b ≤ x then 1 else 0) + digitize x bs

/-- The `digitized` array computed inside `freqMap` (`app.py`, lines
207-212): `len(freq) - 1` bin edges linearly spaced between the series
min and max (in log space when `log` is set), and every sample digitized
against them. -/
noncomputable def digitized (data : List ℝ) (freq : List ℤ) (log : Bool) : List ℕ :=
  if log then
    (data.map Real.log).map fun x =>
      digitize x (linspace (Real.log (listMin data)) (Real.log (listMax data)) (freq.length - 1))
  else
    data.map fun x =>
      digitize x (linspace (listMin data) (listMax data) (freq.length - 1))

/-- Model of `freqMap(data, freq, log=True, inv=False, offset=0)`
(`app.py`, lines 206-215).  Exactly as in the source, the parameters
`inv` and `offset` are accepted but never read by the body; the result
is the lookup `f = [freq[i] for i in digitized]`. -/
noncomputable def freqMap (data : List ℝ) (freq : List ℤ)
    (log : Bool := true) (inv : Bool := false) (offset : ℤ := 0) : List ℤ :=
  (digitized data freq log).map fun i => freq.getD i 0

/-- The loop of `make_track` (`app.py`, lines 219-223), with the
track-so-far kept in reverse order so that the source's `track[-1]` is
the head of the accumulator. -/
def rle_aux : List (ℤ × ℕ) → List ℤ → List (ℤ × ℕ)
  | acc, [] => acc.reverse
  | [], _ :: _ => []
  | (p, c) :: accT, note :: rest =>
      if note = p then rle_aux ((p, c + 1) :: accT) rest
      else rle_aux ((note, 1) :: (p, c) :: accT) rest

/-- Model of `make_track(note_list)` (`app.py`, lines 217-224):
run-length encodes a pitch list into `[pitch, count]` pairs, seeded with
`track = [[note_list[0], 1]]`.  The source raises `IndexError` on an
empty list; the model returns `[]` there (outside every claim's
domain). -/
def make_track : List ℤ → List (ℤ × ℕ)
  | [] => []
  | x :: rest => rle_aux [(x, 1)] rest

/-- Expansion of a run sequence: each `(pitch, count)` pair contributes
`count` copies of `pitch` (the spec's round-trip operation). -/
def expandTrack : List (ℤ × ℕ) → List ℤ
  | [] => []
  | (p, c) :: t => List.replicate c p ++ expandTrack t

/-- Total repeat count of a run sequence. -/
def sumCounts : List (ℤ × ℕ) → ℕ
  | [] => 0
  | (_, c) :: t => c + sumCounts t

/-- Number of maximal constant-value stretches of a list: one for a
singleton, plus one more at every adjacent unequal pair. -/
def numStretches : List ℤ → ℕ
  | [] => 0
  | [_] => 1
  | x :: y :: t => (if x = y then 0 else 1) + numStretches (y :: t)

/-- Model of `pretty_midi.Note` as constructed in `generate_midi`
(`app.py`, lines 657-662); times are exact rationals. -/
structure Note where
  velocity : ℕ
  pitch : ℤ
  start : ℚ
  stop : ℚ
  deriving DecidableEq

/-- The note-assembly loop of `generate_midi` (`app.py`, lines 654-664),
parametrised by the running `start_time`: for each run,
`end_time = start_time + beat_length * note_info[1]`, one `Note` with
`velocity=100`, `pitch=note_info[0]`, `start=start_time`, `end=end_time`
is appended, then `start_time = end_time`. -/
def makeNotes (track : List (ℤ × ℕ)) (beat_length : ℚ) (start_time : ℚ) : List Note :=
  match track with
  | [] => []
  | (p, c) :: rest =>
      let end_time := start_time + beat_length * (c : ℚ)
      ⟨100, p, start_time, end_time⟩ :: makeNotes rest beat_length end_time

/-- The full assembly loop, started at `start_time = 0` as in the
source. -/
def trackNotes (track : List (ℤ × ℕ)) (beat_length : ℚ) : List Note :=
  makeNotes track beat_length 0

/- ## Run-encoder lemmas -/

lemma expandTrack_append (s t : List (ℤ × ℕ)) :
    expandTrack (s ++ t) = expandTrack s ++ expandTrack t := by
  induction s with
  | nil => simp [expandTrack]
  | cons h tl ih =>
      obtain ⟨p, c⟩ := h
      simp [expandTrack, ih, List.append_assoc]

lemma rle_aux_expand (p : ℤ) (c : ℕ) (accT : List (ℤ × ℕ)) (rest : List ℤ) :
    expandTrack (rle_aux ((p, c) :: accT) rest)
      = expandTrack (((p, c) :: accT).reverse) ++ rest := by
  induction rest generalizing p c accT with
  | nil => simp [rle_aux]
  | cons note rest ih =>
      by_cases h : note = p
      · subst h
        rw [rle_aux, if_pos rfl, ih]
        simp [expandTrack_append, expandTrack, List.replicate_succ']
      · rw [rle_aux, if_neg h, ih]
        simp [expandTrack_append, expandTrack]

lemma expandTrack_length (t : List (ℤ × ℕ)) :
    (expandTrack t).length = sumCounts t := by
  induction t with
  | nil => rfl
  | cons h tl ih =>
      obtain ⟨p, c⟩ := h
      simp [expandTrack, sumCounts, ih]

lemma rle_aux_length (p : ℤ) (c : ℕ) (accT : List (ℤ × ℕ)) (rest : List ℤ) :
    (rle_aux ((p, c) :: accT) rest).length = accT.length + numStretches (p :: rest) := by
  induction rest generalizing p c accT with
  | nil => simp [rle_aux, numStretches]
  | cons note rest ih =>
      by_cases h : note = p
      · subst h
        rw [rle_aux, if_pos rfl, ih]
        simp [numStretches]
      · rw [rle_aux, if_neg h, ih]
        have hpn : p ≠ note := fun hx => h hx.symm
        simp only [numStretches, if_neg hpn, List.length_cons]
        ring

lemma make_track_expand (l : List ℤ) (hne : l ≠ []) :
    expandTrack (make_track l) = l := by
  cases l with
  | nil => exact absurd rfl hne
  | cons x rest =>
      rw [make_track, rle_aux_expand]
      simp [expandTrack]

lemma make_track_length (l : List ℤ) :
    (make_track l).length = numStretches l := by
  cases l with
  | nil => rfl
  | cons x rest =>
      rw [make_track, rle_aux_length]
      simp

lemma numStretches_alternating (l : List ℤ) (h : l.Chain' (· ≠ ·)) :
    numStretches l = l.length := by
  induction l with
  | nil => rfl
  | cons x xs ih =>
      cases xs with
      | nil => rfl
      | cons y t =>
          have h1 : x ≠ y := (List.chain'_cons.mp h).1
          have h2 := (List.chain'_cons.mp h).2
          rw [numStretches, if_neg h1, ih h2]
          simp only [List.length_cons]
          omega

lemma numStretches_const (l : List ℤ) (hne : l ≠ []) (h : ∀ x ∈ l, ∀ y ∈ l, x = y) :
    numStretches l = 1 := by
  induction l with
  | nil => exact absurd rfl hne
  | cons x xs ih =>
      cases xs with
      | nil => rfl
      | cons y t =>
          have hxy : x = y := h x (by simp) y (by simp)
          rw [numStretches, if_pos hxy]
          have := ih (by simp)
            (fun a ha b hb => h a (List.mem_cons_of_mem x ha) b (List.mem_cons_of_mem x hb))
          simpa using this

/- ## Claim C2 -/

/-- C2: for every non-empty quantized sequence, expanding the run
sequence produced by `make_track` reproduces the input exactly; the sum
of counts equals the input length; the number of runs equals the number
of maximal constant-value stretches (so a strictly alternating input
yields one run per sample and a constant input exactly one run). -/
theorem make_track_roundtrip_invariants (l : List ℤ) (hne : l ≠ []) :
    expandTrack (make_track l) = l
    ∧ sumCounts (make_track l) = l.length
    ∧ (make_track l).length = numStretches l
    ∧ (l.Chain' (· ≠ ·) → (make_track l).length = l.length)
    ∧ ((∀ x ∈ l, ∀ y ∈ l, x = y) → (make_track l).length = 1) := by
  have hexp := make_track_expand l hne
  refine ⟨hexp, ?_, make_track_length l, ?_, ?_⟩
  · rw [← expandTrack_length, hexp]
  · intro halt
    rw [make_track_length, numStretches_alternating l halt]
  · intro hconst
    rw [make_track_length, numStretches_const l hne hconst]

/-- Witness for C2 at the concrete input `[3, 3, 5, 5, 5, 2]`. -/
theorem make_track_roundtrip_invariants_witness :
    (([3, 3, 5, 5, 5, 2] : List ℤ) ≠ [])
    ∧ (expandTrack (make_track [3, 3, 5, 5, 5, 2]) = [3, 3, 5, 5, 5, 2]
       ∧ sumCounts (make_track [3, 3, 5, 5, 5, 2]) = ([3, 3, 5, 5, 5, 2] : List ℤ).length
       ∧ (make_track [3, 3, 5, 5, 5, 2]).length = numStretches [3, 3, 5, 5, 5, 2]
       ∧ (([3, 3, 5, 5, 5, 2] : List ℤ).Chain' (· ≠ ·) →
            (make_track [3, 3, 5, 5, 5, 2]).length = ([3, 3, 5, 5, 5, 2] : List ℤ).length)
       ∧ ((∀ x ∈ ([3, 3, 5, 5, 5, 2] : List ℤ), ∀ y ∈ ([3, 3, 5, 5, 5, 2] : List ℤ), x = y) →
            (make_track [3, 3, 5, 5, 5, 2]).length = 1)) :=
  ⟨by decide, make_track_roundtrip_invariants [3, 3, 5, 5, 5, 2] (by decide)⟩

/- ## Quantizer evaluation helpers -/

lemma listMin_pair (a b : ℝ) (h : a ≤ b) : listMin [a, b] = a := by
  simp [listMin, min_eq_left h]

lemma listMax_pair (a b : ℝ) (h : a ≤ b) : listMax [a, b] = b := by
  simp [listMax, max_eq_right h]

lemma linspace_one (a b : ℝ) : linspace a b 1 = [a] := by
  rw [linspace, List.range_succ, List.range_zero]
  simp

lemma freqMap_pair (a b : ℝ) (f0 f1 : ℤ) (inv : Bool) (off : ℤ) (h : a ≤ b) :
    freqMap [a, b] [f0, f1] false inv off = [f1, f1] := by
  rw [freqMap, digitized]
  simp only [if_neg (by simp : ¬(false = true))]
  rw [listMin_pair a b h, listMax_pair a b h]
  norm_num [linspace_one, digitize, h, List.getD]

/- ## Claims C4 and C5 -/

/-- C4 counterexample: at series `[1, 2]` and scale `[60, 64]` (linear
mode), quantizing with `inv = true` does not agree with quantizing the
reversed scale with `inv = false`, refuting the claimed inversion
property. -/
theorem freqMap_inv_flag_counterexample :
    freqMap [1, 2] [60, 64] false true 0 ≠ freqMap [1, 2] [64, 60] false false 0 := by
  rw [freqMap_pair 1 2 60 64 true 0 (by norm_num),
      freqMap_pair 1 2 64 60 false 0 (by norm_num)]
  decide

/-- C4 amended: the `inv` parameter of `freqMap` is accepted but never
read, so quantizing with `inv = true` is identical to quantizing with
`inv = false`; inversion only happens when the caller itself passes a
reversed scale. -/
theorem freqMap_inv_flag_ignored (data : List ℝ) (freq : List ℤ)
    (log inv : Bool) (off : ℤ) :
    freqMap data freq log inv off = freqMap data freq log false off := rfl

/-- C5 counterexample: at series `[1, 2]`, scale `[60, 64]` (linear
mode) and `offset = 1`, the output does not equal the `offset = 0`
output with `1` added to every element, refuting the claimed offset
property. -/
theorem freqMap_offset_counterexample :
    freqMap [1, 2] [60, 64] false false 1
      ≠ (freqMap [1, 2] [60, 64] false false 0).map (· + 1) := by
  rw [freqMap_pair 1 2 60 64 false 1 (by norm_num),
      freqMap_pair 1 2 60 64 false 0 (by norm_num)]
  decide

/-- C5 amended: the `offset` parameter of `freqMap` is accepted but
never read, so quantizing with `offset = k` is identical to quantizing
with `offset = 0`; no constant is ever added to the output pitches. -/
theorem freqMap_offset_ignored (data : List ℝ) (freq : List ℤ)
    (log inv : Bool) (k : ℤ) :
    freqMap data freq log inv k = freqMap data freq log inv 0 := rfl

/- ## Assembler lemmas -/

lemma makeNotes_head_start (track : List (ℤ × ℕ)) (beat s : ℚ) :
    ∀ y ∈ (makeNotes track beat s).head?, y.start = s := by
  cases track with
  | nil => simp [makeNotes]
  | cons r rest =>
      obtain ⟨p, c⟩ := r
      intro y hy
      simp [makeNotes] at hy
      rw [← hy]

lemma makeNotes_chain (track : List (ℤ × ℕ)) (beat s : ℚ) :
    (makeNotes track beat s).Chain' (fun a b => a.stop = b.start) := by
  induction track generalizing s with
  | nil => simp [makeNotes]
  | cons r rest ih =>
      obtain ⟨p, c⟩ := r
      rw [makeNotes, List.chain'_cons']
      refine ⟨?_, ih _⟩
      intro y hy
      exact (makeNotes_head_start rest beat _ y hy).symm

lemma makeNotes_getLast_stop (track : List (ℤ × ℕ)) (beat s : ℚ) (d : Note)
    (hne : track ≠ []) :
    ((makeNotes track beat s).getLastD d).stop = s + beat * (sumCounts track : ℚ) := by
  induction track generalizing s d with
  | nil => exact absurd rfl hne
  | cons r rest ih =>
      obtain ⟨p, c⟩ := r
      rw [makeNotes]
      cases rest with
      | nil =>
          simp [makeNotes, sumCounts, List.getLastD]
      | cons r2 rest2 =>
          rw [List.getLastD_cons, ih _ _ (by simp)]
          simp only [sumCounts]
          push_cast
          ring

lemma makeNotes_durations (track : List (ℤ × ℕ)) (beat s : ℚ) :
    ∀ pr ∈ (makeNotes track beat s).zip track,
      pr.1.stop - pr.1.start = beat * (pr.2.2 : ℚ) := by
  induction track generalizing s with
  | nil => simp [makeNotes]
  | cons r rest ih =>
      obtain ⟨p, c⟩ := r
      intro pr hpr
      rw [makeNotes, List.zip_cons_cons] at hpr
      rcases List.mem_cons.mp hpr with h | h
      · subst h; simp
      · exact ih _ pr h

/- ## Claim C3 -/

/-- C3: for every non-empty run sequence and positive unit duration, the
assembled note events start at time 0, each event's duration is the unit
duration times its run's count, consecutive events are exactly
contiguous (`event[i].end = event[i+1].start`), and the last event ends
at `(sum of counts) * unit duration`. -/
theorem trackNotes_contiguous (track : List (ℤ × ℕ)) (beat_length : ℚ)
    (hne : track ≠ []) (hpos : 0 < beat_length) :
    ((trackNotes track beat_length).headD ⟨0, 0, 0, 0⟩).start = 0
    ∧ (trackNotes track beat_length).Chain' (fun a b => a.stop = b.start)
    ∧ (∀ pr ∈ (trackNotes track beat_length).zip track,
        pr.1.stop - pr.1.start = beat_length * (pr.2.2 : ℚ))
    ∧ ((trackNotes track beat_length).getLastD ⟨0, 0, 0, 0⟩).stop
        = (sumCounts track : ℚ) * beat_length := by
  refine ⟨?_, makeNotes_chain track beat_length 0, makeNotes_durations track beat_length 0, ?_⟩
  · cases track with
    | nil => exact absurd rfl hne
    | cons r rest =>
        obtain ⟨p, c⟩ := r
        simp [trackNotes, makeNotes]
  · rw [trackNotes, makeNotes_getLast_stop track beat_length 0 _ hne]
    ring

/-- Witness for C3 at the run sequence `[(60, 2), (64, 1)]` with unit
duration `1/2`. -/
theorem trackNotes_contiguous_witness :
    (([(60, 2), (64, 1)] : List (ℤ × ℕ)) ≠ [] ∧ (0 : ℚ) < 1 / 2)
    ∧ ((trackNotes [(60, 2), (64, 1)] (1 / 2)).headD ⟨0, 0, 0, 0⟩).start = 0
    ∧ (trackNotes [(60, 2), (64, 1)] (1 / 2)).Chain' (fun a b => a.stop = b.start)
    ∧ (∀ pr ∈ (trackNotes [(60, 2), (64, 1)] (1 / 2)).zip
          ([(60, 2), (64, 1)] : List (ℤ × ℕ)),
        pr.1.stop - pr.1.start = (1 / 2 : ℚ) * (pr.2.2 : ℚ))
    ∧ ((trackNotes [(60, 2), (64, 1)] (1 / 2)).getLastD ⟨0, 0, 0, 0⟩).stop
        = (sumCounts [(60, 2), (64, 1)] : ℚ) * (1 / 2) :=
  ⟨⟨by decide, by norm_num⟩,
   trackNotes_contiguous [(60, 2), (64, 1)] (1 / 2) (by decide) (by norm_num)⟩

/- ## Constant-series lemmas -/

lemma foldl_min_const (c : ℝ) :
    ∀ (xs : List ℝ) (x : ℝ), x = c → (∀ y ∈ xs, y = c) → xs.foldl min x = c
  | [], _, hx, _ => hx
  | y :: ys, x, hx, h => by
      rw [List.foldl_cons]
      exact foldl_min_const c ys (min x y)
        (by rw [hx, h y (by simp), min_self])
        (fun z hz => h z (by simp [hz]))

lemma foldl_max_const (c : ℝ) :
    ∀ (xs : List ℝ) (x : ℝ), x = c → (∀ y ∈ xs, y = c) → xs.foldl max x = c
  | [], _, hx, _ => hx
  | y :: ys, x, hx, h => by
      rw [List.foldl_cons]
      exact foldl_max_const c ys (max x y)
        (by rw [hx, h y (by simp), max_self])
        (fun z hz => h z (by simp [hz]))

lemma listMin_const (l : List ℝ) (c : ℝ) (hne : l ≠ []) (h : ∀ x ∈ l, x = c) :
    listMin l = c := by
  cases l with
  | nil => exact absurd rfl hne
  | cons x xs =>
      rw [listMin]
      exact foldl_min_const c xs x (h x (by simp)) (fun y hy => h y (by simp [hy]))

lemma listMax_const (l : List ℝ) (c : ℝ) (hne : l ≠ []) (h : ∀ x ∈ l, x = c) :
    listMax l = c := by
  cases l with
  | nil => exact absurd rfl hne
  | cons x xs =>
      rw [listMax]
      exact foldl_max_const c xs x (h x (by simp)) (fun y hy => h y (by simp [hy]))

lemma linspace_const (a : ℝ) (n : ℕ) : linspace a a n = List.replicate n a := by
  rw [linspace]
  rw [List.eq_replicate_iff]
  constructor
  · rw [List.length_map, List.length_range]
  · intro b hb
    rw [List.mem_map] at hb
    obtain ⟨i, _, rfl⟩ := hb
    simp

lemma digitize_replicate_self (x : ℝ) (n : ℕ) :
    digitize x (List.replicate n x) = n := by
  induction n with
  | zero => rfl
  | succ m ih =>
      rw [List.replicate_succ, digitize, ih, if_pos le_rfl]
      omega

lemma digitized_const (data : List ℝ) (freq : List ℤ) (log : Bool) (c : ℝ)
    (hne : data ≠ []) (h : ∀ x ∈ data, x = c) :
    digitized data freq log = List.replicate data.length (freq.length - 1) := by
  rw [List.eq_replicate_iff]
  cases log with
  | false =>
      rw [digitized]
      simp only [Bool.false_eq_true, if_false]
      rw [listMin_const data c hne h, listMax_const data c hne h, linspace_const]
      constructor
      · simp
      · intro b hb
        rw [List.mem_map] at hb
        obtain ⟨x, hx, rfl⟩ := hb
        rw [h x hx, digitize_replicate_self]
  | true =>
      rw [digitized]
      simp only [if_true]
      rw [listMin_const data c hne h, listMax_const data c hne h, linspace_const]
      constructor
      · simp
      · intro b hb
        rw [List.mem_map] at hb
        obtain ⟨y, hy, rfl⟩ := hb
        rw [List.mem_map] at hy
        obtain ⟨x, hx, rfl⟩ := hy
        rw [h x hx, digitize_replicate_self]

/- ## Claim C1 -/

/-- C1 counterexample: quantizing the constant series `[5, 5, 5]`
against the 3-entry scale `[60, 64, 67]` (log mode, as the application
calls it) does not yield the middle entry `64` for the samples: it
yields the last entry `67`. -/
theorem freqMap_const_not_middle :
    freqMap [5, 5, 5] [60, 64, 67] true false 0 ≠ [64, 64, 64] := by
  rw [freqMap, digitized_const [5, 5, 5] [60, 64, 67] true 5 (by simp)
    (by intro x hx; simp at hx; exact hx)]
  decide

/-- C1 amended: for every constant series (`min = max`), `freqMap` is
total (no division error: the bin edges all coincide) and maps every
sample to one single deterministic scale entry, namely the LAST entry
`scale[len(scale) - 1]` — not the middle one — in both linear and log
mode and for every scale with at least one entry. -/
theorem freqMap_const_last_entry (data : List ℝ) (freq : List ℤ)
    (log inv : Bool) (off : ℤ) (c : ℝ)
    (hne : data ≠ []) (hconst : ∀ x ∈ data, x = c) (hlen : 1 ≤ freq.length) :
    freqMap data freq log inv off
      = List.replicate data.length (freq.getD (freq.length - 1) 0) := by
  rw [freqMap, digitized_const data freq log c hne hconst, List.map_replicate]

/-- Witness for C1's amended theorem at the series `[5, 5, 5]` and scale
`[60, 64, 67]`: all three samples quantize to `67`, the last entry. -/
theorem freqMap_const_last_entry_witness :
    (([5, 5, 5] : List ℝ) ≠ [] ∧ (∀ x ∈ ([5, 5, 5] : List ℝ), x = 5)
      ∧ 1 ≤ ([60, 64, 67] : List ℤ).length)
    ∧ freqMap [5, 5, 5] [60, 64, 67] true false 0
        = List.replicate ([5, 5, 5] : List ℝ).length
            (([60, 64, 67] : List ℤ).getD (([60, 64, 67] : List ℤ).length - 1) 0) :=
  ⟨⟨by simp, by intro x hx; simp at hx; exact hx, by simp⟩,
   freqMap_const_last_entry [5, 5, 5] [60, 64, 67] true false 0 5 (by simp)
     (by intro x hx; simp at hx; exact hx) (by simp)⟩

/- ## Min/max bounds -/

lemma foldl_min_le_init (xs : List ℝ) (x : ℝ) : xs.foldl min x ≤ x := by
  induction xs generalizing x with
  | nil => exact le_refl x
  | cons y ys ih =>
      rw [List.foldl_cons]
      exact le_trans (ih (min x y)) (min_le_left x y)

lemma foldl_min_le (xs : List ℝ) (x : ℝ) : ∀ z ∈ xs, xs.foldl min x ≤ z := by
  induction xs generalizing x with
  | nil => simp
  | cons y ys ih =>
      intro z hz
      rw [List.foldl_cons]
      rcases List.mem_cons.mp hz with h | h
      · subst h
        exact le_trans (foldl_min_le_init ys (min x z)) (min_le_right x z)
      · exact ih (min x y) z h

lemma foldl_min_mem (xs : List ℝ) (x : ℝ) : xs.foldl min x = x ∨ xs.foldl min x ∈ xs := by
  induction xs generalizing x with
  | nil => left; rfl
  | cons y ys ih =>
      rw [List.foldl_cons]
      rcases ih (min x y) with h | h
      · rcases min_choice x y with hm | hm
        · left; rw [h, hm]
        · right; rw [h, hm]; simp
      · right; simp [h]

lemma foldl_max_ge_init (xs : List ℝ) (x : ℝ) : x ≤ xs.foldl max x := by
  induction xs generalizing x with
  | nil => exact le_refl x
  | cons y ys ih =>
      rw [List.foldl_cons]
      exact le_trans (le_max_left x y) (ih (max x y))

lemma foldl_max_ge (xs : List ℝ) (x : ℝ) : ∀ z ∈ xs, z ≤ xs.foldl max x := by
  induction xs generalizing x with
  | nil => simp
  | cons y ys ih =>
      intro z hz
      rw [List.foldl_cons]
      rcases List.mem_cons.mp hz with h | h
      · subst h
        exact le_trans (le_max_right x z) (foldl_max_ge_init ys (max x z))
      · exact ih (max x y) z h

lemma listMin_le (l : List ℝ) (z : ℝ) (hz : z ∈ l) : listMin l ≤ z := by
  cases l with
  | nil => simp at hz
  | cons x xs =>
      rw [listMin]
      rcases List.mem_cons.mp hz with h | h
      · subst h; exact foldl_min_le_init xs z
      · exact foldl_min_le xs x z h

lemma le_listMax (l : List ℝ) (z : ℝ) (hz : z ∈ l) : z ≤ listMax l := by
  cases l with
  | nil => simp at hz
  | cons x xs =>
      rw [listMax]
      rcases List.mem_cons.mp hz with h | h
      · subst h; exact foldl_max_ge_init xs z
      · exact foldl_max_ge xs x z h

lemma listMin_mem (l : List ℝ) (hne : l ≠ []) : listMin l ∈ l := by
  cases l with
  | nil => exact absurd rfl hne
  | cons x xs =>
      rw [listMin]
      rcases foldl_min_mem xs x with h | h
      · rw [h]; simp
      · simp [h]

lemma listMin_lt_listMax (l : List ℝ) (x y : ℝ) (hx : x ∈ l) (hy : y ∈ l)
    (hxy : x ≠ y) : listMin l < listMax l := by
  by_contra hcon
  push_neg at hcon
  have h1 := listMin_le l x hx
  have h2 := listMin_le l y hy
  have h3 := le_listMax l x hx
  have h4 := le_listMax l y hy
  exact hxy (le_antisymm (by linarith) (by linarith))

/- ## Digitize bounds -/

lemma linspace_length (a b : ℝ) (n : ℕ) : (linspace a b n).length = n := by
  rw [linspace, List.length_map, List.length_range]

lemma digitize_le_length (x : ℝ) (bins : List ℝ) : digitize x bins ≤ bins.length := by
  induction bins with
  | nil => simp [digitize]
  | cons b bs ih =>
      rw [digitize, List.length_cons]
      split <;> omega

lemma digitize_mono (x y : ℝ) (h : x ≤ y) (bins : List ℝ) :
    digitize x bins ≤ digitize y bins := by
  induction bins with
  | nil => simp [digitize]
  | cons b bs ih =>
      rw [digitize, digitize]
      by_cases hb : b ≤ x
      · rw [if_pos hb, if_pos (hb.trans h)]; omega
      · rw [if_neg hb]; split <;> omega

lemma digitize_eq_zero (x : ℝ) (bins : List ℝ) (h : ∀ b ∈ bins, x < b) :
    digitize x bins = 0 := by
  induction bins with
  | nil => rfl
  | cons b bs ih =>
      rw [digitize, if_neg (not_le.mpr (h b (by simp)))]
      rw [ih (fun y hy => h y (by simp [hy]))]

lemma digitize_linspace_ge_one (a b x : ℝ) (n : ℕ) (hn : 1 ≤ n) (hax : a ≤ x) :
    1 ≤ digitize x (linspace a b n) := by
  obtain ⟨m, rfl⟩ : ∃ m, n = m + 1 := ⟨n - 1, by omega⟩
  rw [linspace, List.range_succ_eq_map]
  simp only [List.map_cons, Nat.cast_zero, zero_mul, add_zero]
  rw [digitize, if_pos hax]
  omega

lemma digitize_linspace_at_min (a b : ℝ) (n : ℕ) (hn : 1 ≤ n) (hab : a < b) :
    digitize a (linspace a b n) = 1 := by
  obtain ⟨m, rfl⟩ : ∃ m, n = m + 1 := ⟨n - 1, by omega⟩
  rw [linspace, List.range_succ_eq_map]
  simp only [List.map_cons, List.map_map, Nat.cast_zero, zero_mul, add_zero]
  rw [digitize, if_pos le_rfl]
  have hz : digitize a (List.map
      ((fun (i : ℕ) => a + (i : ℝ) * ((b - a) / (((m + 1 : ℕ) : ℝ) - 1))) ∘ Nat.succ)
      (List.range m)) = 0 := by
    apply digitize_eq_zero
    intro y hy
    simp only [List.mem_map, List.mem_range, Function.comp_apply] at hy
    obtain ⟨i, hi, rfl⟩ := hy
    have hden : (((m + 1 : ℕ) : ℝ) - 1) = (m : ℝ) := by push_cast; ring
    rw [hden]
    have hm : (0 : ℝ) < (m : ℝ) := by
      have : 0 < m := by omega
      exact_mod_cast this
    have hpos : 0 < ((Nat.succ i : ℕ) : ℝ) * ((b - a) / (m : ℝ)) := by
      apply mul_pos
      · exact_mod_cast Nat.succ_pos i
      · exact div_pos (sub_pos.mpr hab) hm
    linarith
  rw [hz]

/- ## Digitized-list facts -/

lemma digitized_false (data : List ℝ) (freq : List ℤ) :
    digitized data freq false
      = data.map fun x =>
          digitize x (linspace (listMin data) (listMax data) (freq.length - 1)) := by
  simp [digitized]

lemma digitized_true (data : List ℝ) (freq : List ℤ) :
    digitized data freq true
      = (data.map Real.log).map fun x =>
          digitize x (linspace (Real.log (listMin data)) (Real.log (listMax data))
            (freq.length - 1)) := by
  simp [digitized]

lemma digitized_length (data : List ℝ) (freq : List ℤ) (log : Bool) :
    (digitized data freq log).length = data.length := by
  cases log with
  | false => rw [digitized_false, List.length_map]
  | true => rw [digitized_true, List.length_map, List.length_map]

lemma digitized_lt (data : List ℝ) (freq : List ℤ) (log : Bool)
    (hlen : 1 ≤ freq.length) :
    ∀ j ∈ digitized data freq log, j < freq.length := by
  intro j hj
  have hb : j ≤ freq.length - 1 := by
    cases log with
    | false =>
        rw [digitized_false, List.mem_map] at hj
        obtain ⟨x, _, rfl⟩ := hj
        have := digitize_le_length x
          (linspace (listMin data) (listMax data) (freq.length - 1))
        rwa [linspace_length] at this
    | true =>
        rw [digitized_true, List.mem_map] at hj
        obtain ⟨y, _, rfl⟩ := hj
        have := digitize_le_length y
          (linspace (Real.log (listMin data)) (Real.log (listMax data)) (freq.length - 1))
        rwa [linspace_length] at this
  omega

lemma getD_map {α β : Type} (f : α → β) (l : List α) (i : ℕ) (d : β) (e : α)
    (h : i < l.length) : (l.map f).getD i d = f (l.getD i e) := by
  rw [List.getD_eq_getElem _ _ (by simpa using h), List.getD_eq_getElem _ _ h,
    List.getElem_map]

/- ## Claim C7 -/

/-- C7: for every non-empty, non-constant series and every scale with at
least 2 entries, the quantized sequence has the same length (and
per-sample alignment: it is an elementwise map) as the input, and every
element of it is a member of the supplied scale, in both modes and for
any `inv`/`offset` arguments. -/
theorem freqMap_length_mem (data : List ℝ) (freq : List ℤ) (log inv : Bool)
    (off : ℤ) (hne : data ≠ []) (hnc : ∃ x ∈ data, ∃ y ∈ data, x ≠ y)
    (hlen : 2 ≤ freq.length) :
    (freqMap data freq log inv off).length = data.length
    ∧ ∀ p ∈ freqMap data freq log inv off, p ∈ freq := by
  constructor
  · rw [freqMap, List.length_map, digitized_length]
  · intro p hp
    rw [freqMap, List.mem_map] at hp
    obtain ⟨j, hj, rfl⟩ := hp
    have hjlt := digitized_lt data freq log (by omega) j hj
    rw [List.getD_eq_getElem _ _ hjlt]
    exact List.getElem_mem hjlt

/-- Witness for C7 at series `[1, 2]` and scale `[60, 64]` in linear
mode. -/
theorem freqMap_length_mem_witness :
    (([1, 2] : List ℝ) ≠ [] ∧ (∃ x ∈ ([1, 2] : List ℝ), ∃ y ∈ ([1, 2] : List ℝ), x ≠ y)
      ∧ 2 ≤ ([60, 64] : List ℤ).length)
    ∧ (freqMap [1, 2] [60, 64] false false 0).length = ([1, 2] : List ℝ).length
    ∧ ∀ p ∈ freqMap [1, 2] [60, 64] false false 0, p ∈ ([60, 64] : List ℤ) :=
  ⟨⟨by simp, ⟨1, by simp, 2, by simp, by norm_num⟩, by simp⟩,
   freqMap_length_mem [1, 2] [60, 64] false false 0 (by simp)
     ⟨1, by simp, 2, by simp, by norm_num⟩ (by simp)⟩

/- ## Claim C8 -/

/-- C8: for a strictly increasing series in linear mode, the assigned
bin indices are non-decreasing (quantization preserves ordering in
scale-index order). -/
theorem digitized_monotone (data : List ℝ) (freq : List ℤ)
    (hmono : data.Chain' (· < ·)) :
    (digitized data freq false).Chain' (· ≤ ·) := by
  rw [digitized_false, List.chain'_map]
  exact hmono.imp fun a b h => digitize_mono a b (le_of_lt h) _

/-- Witness for C8 at the strictly increasing series `[1, 2, 3]` with
scale `[60, 64]`. -/
theorem digitized_monotone_witness :
    (([1, 2, 3] : List ℝ).Chain' (· < ·))
    ∧ (digitized [1, 2, 3] [60, 64] false).Chain' (· ≤ ·) :=
  ⟨by norm_num [List.chain'_cons, List.chain'_singleton],
   digitized_monotone [1, 2, 3] [60, 64]
     (by norm_num [List.chain'_cons, List.chain'_singleton])⟩

/- ## Claim C10 -/

/-- C10: for every non-empty, non-constant series (all values positive
in log mode) and duplicate-free scale of length at least 2, the series
minimum coincides with the first bin edge and right-open digitization
sends it to the higher bin, so bin index 0 is unreachable: every
assigned index is at least 1, the first scale entry never occurs in the
output, and samples equal to the minimum map to the second scale
entry. -/
theorem freqMap_first_entry_unreachable (data : List ℝ) (freq : List ℤ)
    (log inv : Bool) (off : ℤ)
    (hne : data ≠ [])
    (hnc : ∃ x ∈ data, ∃ y ∈ data, x ≠ y)
    (hpos : log = true → ∀ x ∈ data, 0 < x)
    (hlen : 2 ≤ freq.length) (hnd : freq.Nodup) :
    (∀ j ∈ digitized data freq log, 1 ≤ j)
    ∧ freq.getD 0 0 ∉ freqMap data freq log inv off
    ∧ ∀ i : ℕ, i < data.length → data.getD i 0 = listMin data →
        (freqMap data freq log inv off).getD i 0 = freq.getD 1 0 := by
  obtain ⟨x0, hx0, y0, hy0, hxy⟩ := hnc
  have hminmax : listMin data < listMax data := listMin_lt_listMax data x0 y0 hx0 hy0 hxy
  have hn1 : 1 ≤ freq.length - 1 := by omega
  have part1 : ∀ j ∈ digitized data freq log, 1 ≤ j := by
    intro j hj
    cases log with
    | false =>
        rw [digitized_false, List.mem_map] at hj
        obtain ⟨x, hx, rfl⟩ := hj
        exact digitize_linspace_ge_one _ _ _ _ hn1 (listMin_le data x hx)
    | true =>
        rw [digitized_true, List.mem_map] at hj
        obtain ⟨y, hy, rfl⟩ := hj
        rw [List.mem_map] at hy
        obtain ⟨x, hx, rfl⟩ := hy
        have hm : 0 < listMin data := hpos rfl _ (listMin_mem data hne)
        exact digitize_linspace_ge_one _ _ _ _ hn1
          (Real.log_le_log hm (listMin_le data x hx))
  refine ⟨part1, ?_, ?_⟩
  · intro hmem
    rw [freqMap, List.mem_map] at hmem
    obtain ⟨j, hj, heq⟩ := hmem
    have hj1 := part1 j hj
    have hjlt := digitized_lt data freq log (by omega) j hj
    rw [List.getD_eq_get _ _ hjlt, List.getD_eq_get _ _ (by omega : 0 < freq.length)] at heq
    have := (hnd.get_inj_iff).mp heq
    have : j = 0 := by simpa using this
    omega
  · intro i hi hmin
    have hdiglen : i < (digitized data freq log).length := by
      rw [digitized_length]; exact hi
    have hdig : (digitized data freq log).getD i 0 = 1 := by
      cases log with
      | false =>
          rw [digitized_false, getD_map _ _ i 0 0 hi, hmin,
            digitize_linspace_at_min _ _ _ hn1 hminmax]
      | true =>
          rw [digitized_true,
            getD_map _ _ i 0 0 (by rw [List.length_map]; exact hi),
            getD_map _ _ i 0 0 hi, hmin]
          have hm : 0 < listMin data := hpos rfl _ (listMin_mem data hne)
          rw [digitize_linspace_at_min _ _ _ hn1 (Real.log_lt_log hm hminmax)]
    rw [freqMap, getD_map _ _ i 0 0 hdiglen, hdig]

/-- Witness for C10 at series `[1, 2]` and scale `[60, 64]` in linear
mode: the first entry `60` never appears, and every index is at least
1. -/
theorem freqMap_first_entry_unreachable_witness :
    ((60 : ℤ) ∉ freqMap [1, 2] [60, 64] false false 0)
    ∧ (∀ j ∈ digitized [1, 2] [60, 64] false, 1 ≤ j) := by
  have h := freqMap_first_entry_unreachable [1, 2] [60, 64] false false 0
    (by simp) ⟨1, by simp, 2, by simp, by norm_num⟩
    (by intro hcon; simp at hcon) (by simp) (by decide)
  exact ⟨h.2.1, h.1⟩

/- ## Log-mode example evaluation (series [1,2,4,8,16], scale [0,1,2,3,4]) -/

lemma listMin_logEx : listMin [1, 2, 4, 8, 16] = 1 := by
  norm_num [listMin, List.foldl_cons, List.foldl_nil, min_def]

lemma listMax_logEx : listMax [1, 2, 4, 8, 16] = 16 := by
  norm_num [listMax, List.foldl_cons, List.foldl_nil, max_def]

lemma logEx_l4 : Real.log 4 = 2 * Real.log 2 := by
  rw [show (4 : ℝ) = 2 ^ 2 by norm_num, Real.log_pow]
  norm_num

lemma logEx_l8 : Real.log 8 = 3 * Real.log 2 := by
  rw [show (8 : ℝ) = 2 ^ 3 by norm_num, Real.log_pow]
  norm_num

lemma logEx_l16 : Real.log 16 = 4 * Real.log 2 := by
  rw [show (16 : ℝ) = 2 ^ 4 by norm_num, Real.log_pow]
  norm_num

lemma logEx_bins : linspace (Real.log 1) (Real.log 16) 4
    = [0, 4 * Real.log 2 / 3, 8 * Real.log 2 / 3, 4 * Real.log 2] := by
  rw [linspace, show List.range 4 = [0, 1, 2, 3] from rfl]
  simp only [List.map_cons, List.map_nil, Real.log_one, logEx_l16, List.cons.injEq, and_true]
  norm_num
  constructor <;> ring

lemma logEx_data : ([1, 2, 4, 8, 16] : List ℝ).map Real.log
    = [0, Real.log 2, 2 * Real.log 2, 3 * Real.log 2, 4 * Real.log 2] := by
  simp only [List.map_cons, List.map_nil, Real.log_one, logEx_l4, logEx_l8, logEx_l16]

lemma digitized_logEx : digitized [1, 2, 4, 8, 16] [0, 1, 2, 3, 4] true = [1, 1, 2, 3, 4] := by
  have hL : (0 : ℝ) < Real.log 2 := Real.log_pos (by norm_num)
  have hlen4 : (([0, 1, 2, 3, 4] : List ℤ).length - 1) = 4 := rfl
  rw [digitized_true, listMin_logEx, listMax_logEx, hlen4, logEx_bins, logEx_data]
  simp only [List.map_cons, List.map_nil]
  have d0 : digitize 0 [0, 4 * Real.log 2 / 3, 8 * Real.log 2 / 3, 4 * Real.log 2] = 1 := by
    simp only [digitize]
    rw [if_pos le_rfl, if_neg (by linarith), if_neg (by linarith), if_neg (by linarith)]
  have d1 : digitize (Real.log 2)
      [0, 4 * Real.log 2 / 3, 8 * Real.log 2 / 3, 4 * Real.log 2] = 1 := by
    simp only [digitize]
    rw [if_pos hL.le, if_neg (by linarith), if_neg (by linarith), if_neg (by linarith)]
  have d2 : digitize (2 * Real.log 2)
      [0, 4 * Real.log 2 / 3, 8 * Real.log 2 / 3, 4 * Real.log 2] = 2 := by
    simp only [digitize]
    rw [if_pos (by linarith), if_pos (by linarith), if_neg (by linarith),
      if_neg (by linarith)]
  have d3 : digitize (3 * Real.log 2)
      [0, 4 * Real.log 2 / 3, 8 * Real.log 2 / 3, 4 * Real.log 2] = 3 := by
    simp only [digitize]
    rw [if_pos (by linarith), if_pos (by linarith), if_pos (by linarith),
      if_neg (by linarith)]
  have d4 : digitize (4 * Real.log 2)
      [0, 4 * Real.log 2 / 3, 8 * Real.log 2 / 3, 4 * Real.log 2] = 4 := by
    simp only [digitize]
    rw [if_pos (by linarith), if_pos (by linarith), if_pos (by linarith),
      if_pos (by linarith)]
  rw [d0, d1, d2, d3, d4]

lemma freqMap_logEx : freqMap [1, 2, 4, 8, 16] [0, 1, 2, 3, 4] true false 0 = [1, 1, 2, 3, 4] := by
  rw [freqMap, digitized_logEx]
  decide

/- ## Claim C9 -/

/-- C9 counterexample: quantizing `[1, 2, 4, 8, 16]` against the scale
`[0, 1, 2, 3, 4]` in log mode does NOT pin the first sample to the
lowest scale entry `0`: the first output pitch is `1` (the second
entry), because the minimum lies on the first bin edge and right-open
digitization assigns it to bin 1. -/
theorem freqMap_log_example_first_not_lowest :
    (freqMap [1, 2, 4, 8, 16] [0, 1, 2, 3, 4] true false 0).headD 0 ≠ 0 := by
  rw [freqMap_logEx]
  decide

/-- C9 amended: the log-mode example yields exactly `[1, 1, 2, 3, 4]` —
monotonically non-decreasing bin indices with the LAST sample pinned to
the highest scale entry `4`, but the FIRST sample mapped to the second
entry `1` rather than the lowest entry `0`. -/
theorem freqMap_log_example_eval :
    freqMap [1, 2, 4, 8, 16] [0, 1, 2, 3, 4] true false 0 = [1, 1, 2, 3, 4]
    ∧ (digitized [1, 2, 4, 8, 16] [0, 1, 2, 3, 4] true).Chain' (· ≤ ·)
    ∧ (freqMap [1, 2, 4, 8, 16] [0, 1, 2, 3, 4] true false 0).getLastD 0 = 4 := by
  refine ⟨freqMap_logEx, ?_, ?_⟩
  · rw [digitized_logEx]
    norm_num [List.chain'_cons, List.chain'_singleton]
  · rw [freqMap_logEx]
    decide
